import Mathlib

/-!
Verification of the RouteIQ core (graph.py, congestion_map.py, and the
weight-update loop of cli.py) against its specification.

Modelling conventions:
* Node identifiers are strings (the program uses "A", "B", … or stringified
  coordinate pairs); Python float weights are idealised as rationals.
* A Python dict is an insertion-ordered association list; dict.setdefault
  appends a fresh key at the end.
* The heapq priority queue holds tuples compared lexicographically; heappop
  returns a minimal element.  Two queue entries that compare equal are equal
  as tuples, so popping the leftmost minimal entry is an exact functional
  model of the binary heap.
* The unreachable sentinel float("inf") is the top element of WithTop ℚ.
* The search loops run on an explicit fuel that bounds the loop iterations by
  the classical Dijkstra measure |unsettled keys| * (edge count + 1) + |queue|;
  exhausted fuel returns the same value as an empty queue.
-/

set_option allowUnsafeReducibility true

attribute [semireducible] Rat.add Rat.mul Rat.sub Rat.div Rat.neg Rat.inv Rat.ofScientific

namespace RouteIQ

abbrev Node := String
abbrev Adj := List (Node × ℚ)
abbrev EdgeMap := List (Node × Adj)
abbrev Triple := Node × Node × ℚ

/-! ### Python tuple comparison, as used by heapq -/

/-- Three-way comparison of rationals. -/
def cmpQ (a b : ℚ) : Ordering :=
  if a < b then .lt else if b < a then .gt else .eq

/-- Three-way comparison of characters by code point, as Python compares. -/
def cmpChar (a b : Char) : Ordering :=
  if a.val < b.val then .lt else if b.val < a.val then .gt else .eq

/-- Lexicographic comparison of lists, shorter-prefix-first, as Python
compares lists. -/
def cmpListBy (c : α → α → Ordering) : List α → List α → Ordering
  | [], [] => .eq
  | [], _ :: _ => .lt
  | _ :: _, [] => .gt
  | a :: as, b :: bs =>
    match c a b with
    | .eq => cmpListBy c as bs
    | o => o

/-- Lexicographic comparison of strings by code points. -/
def cmpStr (a b : Node) : Ordering := cmpListBy cmpChar a.data b.data

/-- An entry of the Dijkstra heap: (cost, node, path). -/
abbrev DEntry := ℚ × Node × List Node

/-- An entry of the A* heap: (estimated total, cost, node, path). -/
abbrev AEntry := ℚ × ℚ × Node × List Node

/-- Python tuple order on Dijkstra heap entries. -/
def cmpD (a b : DEntry) : Ordering :=
  (cmpQ a.1 b.1).then ((cmpStr a.2.1 b.2.1).then (cmpListBy cmpStr a.2.2 b.2.2))

/-- Python tuple order on A* heap entries. -/
def cmpA (a b : AEntry) : Ordering :=
  (cmpQ a.1 b.1).then ((cmpQ a.2.1 b.2.1).then
    ((cmpStr a.2.2.1 b.2.2.1).then (cmpListBy cmpStr a.2.2.2 b.2.2.2)))

/-- heapq.heappop: remove the leftmost minimal element of the queue. -/
def popMin (c : α → α → Ordering) : List α → Option (α × List α)
  | [] => none
  | a :: rest =>
    match popMin c rest with
    | none => some (a, [])
    | some (m, rest') => if c a m = .gt then some (m, a :: rest') else some (a, rest)

/-! ### Association lists standing for Python dicts -/

/-- Value stored under a key, None when absent (dict.get). -/
def lookupKey [DecidableEq α] : List (α × β) → α → Option β
  | [], _ => none
  | (k, v) :: rest, a => if k = a then some v else lookupKey rest a

/-- Overwrite the value stored under an existing key in place (d[k] = v for a
present key); an absent key leaves the list unchanged. -/
def setKey [DecidableEq α] : List (α × β) → α → β → List (α × β)
  | [], _, _ => []
  | (k, v) :: rest, a, b => if k = a then (k, b) :: rest else (k, v) :: setKey rest a b

/-- Overwrite-or-append (d[k] = v on a dict). -/
def upsertKey [DecidableEq α] (m : List (α × β)) (a : α) (b : β) : List (α × β) :=
  if (lookupKey m a).isSome then setKey m a b else m ++ [(a, b)]

/-! ### The Graph class of graph.py -/

/-- Graph.__init__ fields: a node set, an insertion-ordered adjacency dict,
and a partial position dict used by the A* heuristic. -/
structure Graph where
  nodes : List Node
  edges : EdgeMap
  positions : List (Node × (ℚ × ℚ))
deriving DecidableEq, Repr

/-- Graph(): all three containers start empty. -/
def Graph.empty : Graph := ⟨[], [], []⟩

/-- Python set.add: membership-preserving insertion. -/
def insertNew (l : List Node) (n : Node) : List Node :=
  if n ∈ l then l else l ++ [n]

/-- self.edges.get(node, []). -/
def Graph.edgesGet (g : Graph) (n : Node) : Adj :=
  (lookupKey g.edges n).getD []

/-- Graph.add_node: adds to the node set, creates an empty adjacency entry if
absent, and stores the position when one is given (a 2-tuple is always truthy
in Python, so a provided position is always stored). -/
def Graph.add_node (g : Graph) (n : Node) (pos : Option (ℚ × ℚ)) : Graph :=
  { nodes := insertNew g.nodes n
    edges := if (lookupKey g.edges n).isSome then g.edges else g.edges ++ [(n, [])]
    positions :=
      match pos with
      | some p => upsertKey g.positions n p
      | none => g.positions }

/-- self.edges.setdefault(from_node, []).append((to_node, weight)): append
the pair to the key's list, creating the key at the end of the dict when
absent. -/
def setdefaultAppend (m : EdgeMap) (f t : Node) (w : ℚ) : EdgeMap :=
  match lookupKey m f with
  | some adj => setKey m f (adj ++ [(t, w)])
  | none => m ++ [(f, [(t, w)])]

/-- self.edges.setdefault(to_node, []): create the key with an empty list at
the end of the dict when absent. -/
def ensureKey (m : EdgeMap) (t : Node) : EdgeMap :=
  if (lookupKey m t).isSome then m else m ++ [(t, [])]

/-- Graph.add_edge: self.edges.setdefault(from,[]).append((to,w)) followed by
self.edges.setdefault(to,[]).  The node set is not touched. -/
def Graph.add_edge (g : Graph) (f t : Node) (w : ℚ) : Graph :=
  { g with edges := ensureKey (setdefaultAppend g.edges f t w) t }

/-- The edges recorded in an adjacency dict as (from, to, weight) triples,
in adjacency-list iteration order. -/
def mapTriples (m : EdgeMap) : List Triple :=
  m.foldr (fun p acc => p.2.map (fun e => (p.1, e.1, e.2)) ++ acc) []

/-- All edges of the graph as (from, to, weight) triples, in adjacency-list
iteration order. -/
def edgeTriples (g : Graph) : List Triple :=
  mapTriples g.edges

/-- Keys of the adjacency dict, in iteration order. -/
def Graph.keyList (g : Graph) : List Node := g.edges.map Prod.fst

/-- Total number of directed edge records. -/
def Graph.edgeCount (g : Graph) : ℕ := (g.edges.map (fun p => p.2.length)).sum

/-- Keys of the adjacency dict as a finite set. -/
def Graph.keysFinset (g : Graph) : Finset Node := g.keyList.toFinset

/-! ### Dijkstra (Graph.dijkstra) -/

/-- One run of the while-loop of Graph.dijkstra, structurally recursive on a
fuel; exhausted fuel returns the same value as an exhausted queue.  The fuel
chosen by Graph.dijkstra bounds the loop by the measure
|unsettled keys| * (edgeCount + 1) + |queue|, which strictly decreases at
every iteration. -/
def dijkstraAux (g : Graph) (endNode : Node) :
    ℕ → List DEntry → Finset Node → List Node × WithTop ℚ
  | 0, _, _ => ([], ⊤)
  | fuel + 1, q, visited =>
    match popMin cmpD q with
    | none => ([], ⊤)
    | some ((cost, node, path), rest) =>
      if node ∈ visited then
        dijkstraAux g endNode fuel rest visited
      else
        if node = endNode then (path ++ [node], (cost : WithTop ℚ))
        else
          dijkstraAux g endNode fuel
            (rest ++ (g.edgesGet node).filterMap (fun nb =>
              if nb.1 ∈ insert node visited then none
              else some (cost + nb.2, nb.1, path ++ [node])))
            (insert node visited)

/-- Fuel sufficient to drain the Dijkstra/A* loop started on a one-element
queue: the initial value of the loop measure. -/
def Graph.searchFuel (g : Graph) : ℕ :=
  g.keysFinset.card * (g.edgeCount + 1) + 1

/-- Graph.dijkstra: queue seeded with (0, start, []), empty visited set. -/
def Graph.dijkstra (g : Graph) (start endNode : Node) : List Node × WithTop ℚ :=
  dijkstraAux g endNode g.searchFuel [(0, start, [])] ∅

/-! ### A* (Graph.a_star, Graph.euclidean_heuristic) -/

/-- Largest k ≤ bound with k * k ≤ n, by countdown from the bound. -/
def natSqrtFrom : ℕ → ℕ → ℕ
  | 0, _ => 0
  | k + 1, n => if (k + 1) * (k + 1) ≤ n then k + 1 else natSqrtFrom k n

/-- The integer square root, exact on perfect squares (natSqrt_sq below). -/
def natSqrt (n : ℕ) : ℕ := natSqrtFrom n n

/-- The rational square root, numerator and denominator separately as in
Rat.sqrt; exact whenever the true square root is rational (ratSqrt_sq
below), which holds for every position pair used in this development. -/
def ratSqrt (q : ℚ) : ℚ := mkRat (natSqrt q.num.toNat) (natSqrt q.den)

/-- math.hypot(x, y) = sqrt(x^2 + y^2). -/
def hypot (x y : ℚ) : ℚ := ratSqrt (x ^ 2 + y ^ 2)

/-- Graph.euclidean_heuristic: straight-line distance between stored
positions, 0 when either node has no position. -/
def Graph.euclidean_heuristic (g : Graph) (n1 n2 : Node) : ℚ :=
  match lookupKey g.positions n1, lookupKey g.positions n2 with
  | some p1, some p2 => hypot (p1.1 - p2.1) (p1.2 - p2.2)
  | _, _ => 0

/-- One run of the while-loop of Graph.a_star, for an arbitrary injectable
heuristic, structurally recursive on a fuel as in dijkstraAux. -/
def aStarAux (g : Graph) (h : Node → Node → ℚ) (endNode : Node) :
    ℕ → List AEntry → Finset Node → List Node × WithTop ℚ
  | 0, _, _ => ([], ⊤)
  | fuel + 1, q, visited =>
    match popMin cmpA q with
    | none => ([], ⊤)
    | some ((_, cost, node, path), rest) =>
      if node ∈ visited then
        aStarAux g h endNode fuel rest visited
      else
        if node = endNode then (path ++ [node], (cost : WithTop ℚ))
        else
          aStarAux g h endNode fuel
            (rest ++ (g.edgesGet node).filterMap (fun nb =>
              if nb.1 ∈ insert node visited then none
              else some (cost + nb.2 + h nb.1 endNode, cost + nb.2, nb.1, path ++ [node])))
            (insert node visited)

/-- Graph.a_star with an explicitly passed heuristic; the queue is seeded
with (0 + h(start, end), 0, start, []). -/
def Graph.a_starWith (g : Graph) (h : Node → Node → ℚ) (start endNode : Node) :
    List Node × WithTop ℚ :=
  aStarAux g h endNode g.searchFuel [(0 + h start endNode, 0, start, [])] ∅

/-- Graph.a_star with heuristic=None: the default is euclidean_heuristic. -/
def Graph.a_star (g : Graph) (start endNode : Node) : List Node × WithTop ℚ :=
  g.a_starWith (g.euclidean_heuristic) start endNode

/-! ### congestion_map.py -/

/-- Module constant CONGESTION_THRESHOLD = 7. -/
def CONGESTION_THRESHOLD : ℚ := 7

/-- Inner loop of find_hotspots: the entries of one adjacency list whose
weight reaches the threshold, as (from, to, weight) triples in list order. -/
def findHotspotsFrom (t : ℚ) (f : Node) : Adj → List Triple
  | [] => []
  | (n, w) :: rest =>
    if t ≤ w then (f, n, w) :: findHotspotsFrom t f rest
    else findHotspotsFrom t f rest

/-- Outer loop of find_hotspots over the adjacency dict, with the threshold
made a parameter (the source reads the module constant
CONGESTION_THRESHOLD; the spec presents the threshold as an argument). -/
def findHotspotsWith (t : ℚ) : EdgeMap → List Triple
  | [] => []
  | (f, adj) :: rest => findHotspotsFrom t f adj ++ findHotspotsWith t rest

/-- find_hotspots(graph): hotspot edges at the module threshold. -/
def find_hotspots (g : Graph) : List Triple :=
  findHotspotsWith CONGESTION_THRESHOLD g.edges

/-- The inner removal scan of suggest_alternate_path: pop the first adjacency
entry equal to (to, weight); None when no entry matches. -/
def popMatch : Adj → Node → ℚ → Option Adj
  | [], _, _ => none
  | (n, w') :: rest, t, w =>
    if n = t ∧ w' = w then some rest
    else (popMatch rest t w).map (fun adj => (n, w') :: adj)

/-- The removal loop of suggest_alternate_path: for each hotspot triple, pop
the first matching entry of its source's adjacency list and record it in the
removed list.  A hotspot source is always a key of the adjacency dict (the
hotspots were drawn from it), so the lookup never fails there. -/
def removePhase : EdgeMap → List Triple → EdgeMap × List Triple
  | edges, [] => (edges, [])
  | edges, (f, t, w) :: hs =>
    let step : EdgeMap × List Triple :=
      match lookupKey edges f with
      | none => (edges, [])
      | some adj =>
        match popMatch adj t w with
        | none => (edges, [])
        | some adj' => (setKey edges f adj', [(f, t, w)])
    let next := removePhase step.1 hs
    (next.1, step.2 ++ next.2)

/-- graph.edges[from_node].append((to_node, weight)) for one restored edge;
the key is always present when called from suggest_alternate_path. -/
def appendEdge (edges : EdgeMap) (f t : Node) (w : ℚ) : EdgeMap :=
  match lookupKey edges f with
  | none => edges
  | some adj => setKey edges f (adj ++ [(t, w)])

/-- The restoration loop of suggest_alternate_path: re-append every removed
edge at the tail of its source's adjacency list, in removal order. -/
def restorePhase (edges : EdgeMap) : List Triple → EdgeMap
  | [] => edges
  | (f, t, w) :: rest => restorePhase (appendEdge edges f t w) rest

/-- suggest_alternate_path: compute hotspots, remove them, run dijkstra on
the reduced graph, restore the removed edges.  The source mutates the graph
in place; the model returns the search result together with the final
graph. -/
def suggest_alternate_path (g : Graph) (start endNode : Node) :
    (List Node × WithTop ℚ) × Graph :=
  let hotspots := find_hotspots g
  let removal := removePhase g.edges hotspots
  let reduced : Graph := { g with edges := removal.1 }
  let result := reduced.dijkstra start endNode
  (result, { reduced with edges := restorePhase removal.1 removal.2 })

/-! ### The per-segment weight update of cli.poll_traffic -/

/-- The weight-update step that cli.poll_traffic applies for one traffic
segment (the operation the spec calls update_edge_weight): when from is a key
of the adjacency dict, every entry whose target equals to is overwritten with
(to, weight); the loop has no break, so all parallel matches are updated.
Nothing happens when from is not a key. -/
def Graph.update_edge_weight (g : Graph) (f t : Node) (w : ℚ) : Graph :=
  match lookupKey g.edges f with
  | none => g
  | some adj =>
    { g with edges := setKey g.edges f (adj.map (fun e => if e.1 = t then (t, w) else e)) }

/-! ### traffic_api.py: the mock fallback data and graph construction -/

/-- One road segment record of the traffic feed. -/
structure Segment where
  src : Node
  dst : Node
  weight : ℚ
  src_pos : ℚ × ℚ
  dst_pos : ℚ × ℚ
deriving DecidableEq, Repr

/-- fetch_traffic_data: the mock fallback list returned when no live API is
configured (the network branch is I/O and is not modelled). -/
def fetch_traffic_data : List Segment :=
  [ ⟨"A", "B", 5, (52.5200, 13.4050), (52.5205, 13.4060)⟩
  , ⟨"B", "C", 3, (52.5205, 13.4060), (52.5210, 13.4070)⟩
  , ⟨"A", "C", 10, (52.5200, 13.4050), (52.5210, 13.4070)⟩
  , ⟨"B", "D", 8, (52.5205, 13.4060), (52.5215, 13.4080)⟩
  , ⟨"C", "D", 2, (52.5210, 13.4070), (52.5215, 13.4080)⟩
  , ⟨"D", "E", 4, (52.5215, 13.4080), (52.5220, 13.4090)⟩
  , ⟨"E", "F", 6, (52.5220, 13.4090), (52.5225, 13.4100)⟩
  , ⟨"C", "F", 12, (52.5210, 13.4070), (52.5225, 13.4100)⟩
  , ⟨"A", "E", 15, (52.5200, 13.4050), (52.5220, 13.4090)⟩
  , ⟨"B", "E", 7, (52.5205, 13.4060), (52.5220, 13.4090)⟩ ]

/-- build_graph_from_traffic: add both endpoints with their positions, then
the directed edge, for each segment in order. -/
def build_graph_from_traffic (data : List Segment) : Graph :=
  data.foldl
    (fun g s =>
      ((g.add_node s.src (some s.src_pos)).add_node s.dst (some s.dst_pos)).add_edge
        s.src s.dst s.weight)
    Graph.empty

/-- The graph the CLI builds from the mock traffic data. -/
def mockGraph : Graph := build_graph_from_traffic fetch_traffic_data

/-! ### Operation sequences over a fresh graph -/

/-- A single public mutation of the Graph class. -/
inductive GraphOp where
  | node (n : Node) (pos : Option (ℚ × ℚ))
  | edge (f t : Node) (w : ℚ)

/-- Apply one mutation. -/
def applyOp (g : Graph) : GraphOp → Graph
  | .node n p => g.add_node n p
  | .edge f t w => g.add_edge f t w

/-- Apply a sequence of mutations to the freshly constructed graph. -/
def applyOps (ops : List GraphOp) : Graph :=
  ops.foldl applyOp Graph.empty

/-! ### Reachability along directed edges -/

/-- One directed edge from a to b with some weight. -/
def adjStep (g : Graph) (a b : Node) : Prop :=
  ∃ w, (b, w) ∈ g.edgesGet a

/-- b is reachable from a along directed edges. -/
def Reach (g : Graph) (a b : Node) : Prop :=
  Relation.ReflTransGen (adjStep g) a b

/-! ### C8: searching from x to x -/

/-- C8: for every graph G and node x, both uniform-cost search and
heuristic-guided search (with any heuristic, the default included) from x to
x return the single-node path [x] with cost 0. -/
theorem search_self_returns_singleton (g : Graph) (x : Node) :
    g.dijkstra x x = ([x], ((0 : ℚ) : WithTop ℚ)) ∧
    g.a_star x x = ([x], ((0 : ℚ) : WithTop ℚ)) ∧
    ∀ h : Node → Node → ℚ, g.a_starWith h x x = ([x], ((0 : ℚ) : WithTop ℚ)) := by
  refine ⟨?_, ?_, ?_⟩
  · simp [Graph.dijkstra, Graph.searchFuel, dijkstraAux, popMin]
  · simp [Graph.a_star, Graph.a_starWith, Graph.searchFuel, aStarAux, popMin]
  · intro h
    simp [Graph.a_starWith, Graph.searchFuel, aStarAux, popMin]

/-! ### C7: termination with the unreachable sentinel -/

/-- The element heappop returns is in the queue, and so is every element of
the remaining queue. -/
theorem popMin_mem {c : α → α → Ordering} :
    ∀ {l : List α} {x : α} {rest : List α}, popMin c l = some (x, rest) →
      x ∈ l ∧ ∀ y ∈ rest, y ∈ l := by
  intro l
  induction l with
  | nil => intro x rest h; simp [popMin] at h
  | cons a t ih =>
    intro x rest h
    cases ht : popMin c t with
    | none =>
      simp only [popMin, ht] at h
      obtain ⟨rfl, rfl⟩ : a = x ∧ ([] : List α) = rest := by
        simpa using h
      exact ⟨List.mem_cons_self a t, by simp⟩
    | some pr =>
      obtain ⟨m, rest'⟩ := pr
      obtain ⟨hm, hrest'⟩ := ih ht
      simp only [popMin, ht] at h
      by_cases hc : c a m = .gt
      · rw [if_pos hc] at h
        obtain ⟨rfl, rfl⟩ : m = x ∧ a :: rest' = rest := by simpa using h
        refine ⟨List.mem_cons_of_mem a hm, ?_⟩
        intro y hy
        rcases List.mem_cons.1 hy with rfl | hy2
        · exact List.mem_cons_self y t
        · exact List.mem_cons_of_mem a (hrest' y hy2)
      · rw [if_neg hc] at h
        obtain ⟨rfl, rfl⟩ : a = x ∧ t = rest := by simpa using h
        exact ⟨List.mem_cons_self a t, fun y hy => List.mem_cons_of_mem a hy⟩

/-- When the destination is unreachable from every node of the queue, the
Dijkstra loop drains the queue and reports the sentinel. -/
theorem dijkstraAux_unreachable (g : Graph) (s e : Node) (hne : ¬ Reach g s e) :
    ∀ (fuel : ℕ) (q : List DEntry) (visited : Finset Node),
      (∀ en ∈ q, Reach g s en.2.1) →
      dijkstraAux g e fuel q visited = ([], ⊤) := by
  intro fuel
  induction fuel with
  | zero => intro q v _; rfl
  | succ fuel ih =>
    intro q v hq
    cases hpop : popMin cmpD q with
    | none => simp [dijkstraAux, hpop]
    | some pr =>
      obtain ⟨⟨cost, node, path⟩, rest⟩ := pr
      obtain ⟨hmem, hrest⟩ := popMin_mem hpop
      have hnode : Reach g s node := hq _ hmem
      have hnodee : node ≠ e := fun hcontra => hne (hcontra ▸ hnode)
      simp only [dijkstraAux, hpop]
      by_cases hv : node ∈ v
      · rw [if_pos hv]
        exact ih rest v (fun en hen => hq en (hrest en hen))
      · rw [if_neg hv, if_neg hnodee]
        apply ih
        intro en hen
        rcases List.mem_append.1 hen with h1 | h2
        · exact hq en (hrest en h1)
        · obtain ⟨nb, hnb, hmk⟩ := List.mem_filterMap.1 h2
          by_cases hins : nb.1 ∈ insert node v
          · rw [if_pos hins] at hmk; cases hmk
          · rw [if_neg hins] at hmk
            obtain rfl : (cost + nb.2, nb.1, path ++ [node]) = en := by simpa using hmk
            exact Relation.ReflTransGen.tail hnode ⟨nb.2, hnb⟩

/-- When the destination is unreachable from every node of the queue, the A*
loop drains the queue and reports the sentinel, for any heuristic. -/
theorem aStarAux_unreachable (g : Graph) (hf : Node → Node → ℚ) (s e : Node)
    (hne : ¬ Reach g s e) :
    ∀ (fuel : ℕ) (q : List AEntry) (visited : Finset Node),
      (∀ en ∈ q, Reach g s en.2.2.1) →
      aStarAux g hf e fuel q visited = ([], ⊤) := by
  intro fuel
  induction fuel with
  | zero => intro q v _; rfl
  | succ fuel ih =>
    intro q v hq
    cases hpop : popMin cmpA q with
    | none => simp [aStarAux, hpop]
    | some pr =>
      obtain ⟨⟨est, cost, node, path⟩, rest⟩ := pr
      obtain ⟨hmem, hrest⟩ := popMin_mem hpop
      have hnode : Reach g s node := hq _ hmem
      have hnodee : node ≠ e := fun hcontra => hne (hcontra ▸ hnode)
      simp only [aStarAux, hpop]
      by_cases hv : node ∈ v
      · rw [if_pos hv]
        exact ih rest v (fun en hen => hq en (hrest en hen))
      · rw [if_neg hv, if_neg hnodee]
        apply ih
        intro en hen
        rcases List.mem_append.1 hen with h1 | h2
        · exact hq en (hrest en h1)
        · obtain ⟨nb, hnb, hmk⟩ := List.mem_filterMap.1 h2
          by_cases hins : nb.1 ∈ insert node v
          · rw [if_pos hins] at hmk; cases hmk
          · rw [if_neg hins] at hmk
            obtain rfl :
                (cost + nb.2 + hf nb.1 e, cost + nb.2, nb.1, path ++ [node]) = en := by
              simpa using hmk
            exact Relation.ReflTransGen.tail hnode ⟨nb.2, hnb⟩

/-- C7: on every finite graph (cycles, self-loops and disconnected components
included), when the destination is unreachable from the start both searches
return the sentinel (empty path, infinite cost) as a normal value — and they
do so at every fuel at least as well as at the budget the definitions use,
so the loops genuinely drain their frontier. -/
theorem search_unreachable_sentinel (g : Graph) (s e : Node) (hne : ¬ Reach g s e) :
    g.dijkstra s e = ([], ⊤) ∧ g.a_star s e = ([], ⊤) ∧
    (∀ fuel : ℕ, dijkstraAux g e fuel [(0, s, [])] ∅ = ([], ⊤)) ∧
    (∀ (hf : Node → Node → ℚ) (fuel : ℕ),
      aStarAux g hf e fuel [(0 + hf s e, 0, s, [])] ∅ = ([], ⊤)) := by
  have hd : ∀ fuel : ℕ, dijkstraAux g e fuel [(0, s, [])] ∅ = ([], ⊤) := by
    intro fuel
    apply dijkstraAux_unreachable g s e hne
    intro en hen
    obtain rfl : en = ((0 : ℚ), s, ([] : List Node)) := by simpa using hen
    exact Relation.ReflTransGen.refl
  have ha : ∀ (hf : Node → Node → ℚ) (fuel : ℕ),
      aStarAux g hf e fuel [(0 + hf s e, 0, s, [])] ∅ = ([], ⊤) := by
    intro hf fuel
    apply aStarAux_unreachable g hf s e hne
    intro en hen
    obtain rfl : en = (hf s e, (0 : ℚ), s, ([] : List Node)) := by simpa using hen
    exact Relation.ReflTransGen.refl
  exact ⟨hd _, ha _ _, hd, ha⟩

/-- A two-node graph with the single edge A→B, used to witness unreachable
searches. -/
def lineGraph : Graph := Graph.empty.add_edge "A" "B" 1

/-- Every node reachable from A in lineGraph is A or B. -/
theorem lineGraph_reach (z : Node) (h : Reach lineGraph "A" z) :
    z = "A" ∨ z = "B" := by
  induction h with
  | refl => exact .inl rfl
  | tail hab hstep ih =>
    obtain ⟨w, hw⟩ := hstep
    rcases ih with h1 | h1 <;> subst h1
    · rw [show lineGraph.edgesGet "A" = [("B", 1)] by decide] at hw
      simp at hw
      exact .inr hw.1
    · rw [show lineGraph.edgesGet "B" = [] by decide] at hw
      simp at hw

/-- Witness for C7: Z is unreachable from A in lineGraph, and both searches
return the sentinel there. -/
theorem search_unreachable_sentinel_witness :
    (¬ Reach lineGraph "A" "Z") ∧ lineGraph.dijkstra "A" "Z" = ([], ⊤) ∧
      lineGraph.a_star "A" "Z" = ([], ⊤) := by
  have hnr : ¬ Reach lineGraph "A" "Z" := by
    intro h
    rcases lineGraph_reach "Z" h with h1 | h1 <;> exact absurd h1 (by decide)
  obtain ⟨h1, h2, -⟩ := search_unreachable_sentinel lineGraph "A" "Z" hnr
  exact ⟨hnr, h1, h2⟩

/-! ### C1: Dijkstra vs A* with the default heuristic -/

/-- A Dijkstra heap entry viewed as an A* heap entry with estimate equal to
the accumulated cost (the shape A* entries take when the heuristic is 0). -/
def d2a (e : DEntry) : AEntry := (e.1, e)

/-- Repeating the first component of a lexicographic comparison changes
nothing. -/
theorem Ordering_then_idem (o r : Ordering) : o.then (o.then r) = o.then r := by
  cases o <;> rfl

/-- On entries with estimate = cost, the A* tuple order is the Dijkstra tuple
order. -/
theorem cmpA_d2a (x y : DEntry) : cmpA (d2a x) (d2a y) = cmpD x y := by
  simp only [cmpA, cmpD, d2a]
  exact Ordering_then_idem _ _

/-- heappop commutes with viewing Dijkstra entries as estimate-equal A*
entries. -/
theorem popMin_map_d2a :
    ∀ q : List DEntry,
      popMin cmpA (q.map d2a) =
        (popMin cmpD q).map (fun pr => (d2a pr.1, pr.2.map d2a)) := by
  intro q
  induction q with
  | nil => rfl
  | cons a t ih =>
    simp only [List.map_cons, popMin, ih]
    cases ht : popMin cmpD t with
    | none => rfl
    | some pr =>
      obtain ⟨m, r⟩ := pr
      simp only [Option.map_some', cmpA_d2a]
      by_cases hc : cmpD a m = .gt
      · rw [if_pos hc, if_pos hc]; rfl
      · rw [if_neg hc, if_neg hc]; rfl

/-- With a heuristic that vanishes at the destination, the A* loop computes
exactly the Dijkstra loop, step by step. -/
theorem aStarAux_zero_heuristic (g : Graph) (hf : Node → Node → ℚ) (e : Node)
    (hzero : ∀ n, hf n e = 0) :
    ∀ (fuel : ℕ) (q : List DEntry) (visited : Finset Node),
      aStarAux g hf e fuel (q.map d2a) visited = dijkstraAux g e fuel q visited := by
  intro fuel
  induction fuel with
  | zero => intro q v; rfl
  | succ fuel ih =>
    intro q v
    simp only [aStarAux, dijkstraAux, popMin_map_d2a]
    cases hpop : popMin cmpD q with
    | none => rfl
    | some pr =>
      obtain ⟨⟨cost, node, path⟩, rest⟩ := pr
      simp only [Option.map_some', d2a]
      by_cases hv : node ∈ v
      · rw [if_pos hv, if_pos hv]
        exact ih rest v
      · rw [if_neg hv, if_neg hv]
        by_cases hend : node = e
        · rw [if_pos hend, if_pos hend]
        · rw [if_neg hend, if_neg hend]
          rw [show (g.edgesGet node).filterMap (fun nb =>
                if nb.1 ∈ insert node v then none
                else some (cost + nb.2 + hf nb.1 e, cost + nb.2, nb.1, path ++ [node])) =
              ((g.edgesGet node).filterMap (fun nb =>
                if nb.1 ∈ insert node v then none
                else some (cost + nb.2, nb.1, path ++ [node]))).map d2a from ?_]
          · rw [← List.map_append]
            exact ih _ _
          · rw [List.map_filterMap]
            apply List.filterMap_congr
            intro nb _
            by_cases hins : nb.1 ∈ insert node v
            · rw [if_pos hins, if_pos hins]; rfl
            · rw [if_neg hins, if_neg hins, hzero nb.1]
              simp [d2a]

/-- C1 (amended): whenever the stored position map is empty — so the default
Euclidean heuristic degenerates to 0 — heuristic-guided search returns
exactly the result of uniform-cost search, path and cost alike, for every
start and end. (With positions present the default heuristic need not be
admissible and the costs can differ; see the counterexample.) -/
theorem a_star_eq_dijkstra_of_no_positions (g : Graph) (hpos : g.positions = [])
    (s e : Node) : g.a_star s e = g.dijkstra s e := by
  have hzero : ∀ n m, g.euclidean_heuristic n m = 0 := by
    intro n m
    unfold Graph.euclidean_heuristic
    rw [hpos]
    rfl
  unfold Graph.a_star Graph.a_starWith Graph.dijkstra
  rw [hzero s e]
  have h := aStarAux_zero_heuristic g g.euclidean_heuristic e (fun n => hzero n e)
    g.searchFuel [(0, s, [])] ∅
  simpa [d2a] using h

/-- Witness for the amended C1: lineGraph stores no positions, and A* equals
Dijkstra on it. -/
theorem a_star_eq_dijkstra_of_no_positions_witness :
    lineGraph.positions = [] ∧ lineGraph.a_star "A" "B" = lineGraph.dijkstra "A" "B" :=
  ⟨by decide, a_star_eq_dijkstra_of_no_positions lineGraph (by decide) "A" "B"⟩

/-- A three-node graph whose stored positions make the default Euclidean
heuristic overestimate the true remaining cost: edge weights are small
numbers while b lies far from c in coordinate space. -/
def overestimateGraph : Graph :=
  (((((Graph.empty.add_node "a" (some (1, 1))).add_node "b" (some (11, 1))).add_node "c"
    (some (1, 1))).add_edge "a" "b" 1).add_edge "b" "c" 1).add_edge "a" "c" 3

/-- Counterexample to C1 as stated: on overestimateGraph, c is reachable from
a, uniform-cost search finds cost 2 (through b), but heuristic-guided search
with its default heuristic settles the direct edge first and returns cost 3,
so the two costs differ. -/
theorem dijkstra_a_star_cost_counterexample :
    Reach overestimateGraph "a" "c" ∧
    overestimateGraph.dijkstra "a" "c" = (["a", "b", "c"], ((2 : ℚ) : WithTop ℚ)) ∧
    overestimateGraph.a_star "a" "c" = (["a", "c"], ((3 : ℚ) : WithTop ℚ)) ∧
    (overestimateGraph.dijkstra "a" "c").2 ≠ (overestimateGraph.a_star "a" "c").2 := by
  refine ⟨Relation.ReflTransGen.single ⟨3, by decide⟩, by decide, by decide, by decide⟩

/-! ### C2: suggest_alternate_path preserves the edge multiset -/

/-- mapTriples distributes over a cons of the adjacency dict. -/
theorem mapTriples_cons (p : Node × Adj) (rest : EdgeMap) :
    mapTriples (p :: rest) = p.2.map (fun e => (p.1, e.1, e.2)) ++ mapTriples rest := rfl

/-- Overwriting a value in place leaves the key sequence unchanged. -/
theorem setKey_keys [DecidableEq α] (m : List (α × β)) (k : α) (b : β) :
    (setKey m k b).map Prod.fst = m.map Prod.fst := by
  induction m with
  | nil => rfl
  | cons p rest ih =>
    obtain ⟨k', v⟩ := p
    by_cases h : k' = k
    · simp [setKey, h]
    · simp [setKey, h, ih]

/-- A lookup succeeds exactly on the keys. -/
theorem lookupKey_isSome_iff [DecidableEq α] {m : List (α × β)} {k : α} :
    (lookupKey m k).isSome ↔ k ∈ m.map Prod.fst := by
  induction m with
  | nil => simp [lookupKey]
  | cons p rest ih =>
    obtain ⟨k', v⟩ := p
    by_cases h : k' = k
    · simp [lookupKey, h]
    · have h' : ¬ k = k' := fun hc => h hc.symm
      simp [lookupKey, h, ih, h']

/-- Overwriting a present key's adjacency list exchanges exactly that list's
triples, as multisets. -/
theorem setKey_mapTriples :
    ∀ {m : EdgeMap} {f : Node} {adj : Adj}, lookupKey m f = some adj → ∀ adj' : Adj,
      (↑(mapTriples (setKey m f adj')) + ↑(adj.map (fun e => (f, e.1, e.2))) :
          Multiset Triple) =
        ↑(mapTriples m) + ↑(adj'.map (fun e => (f, e.1, e.2))) := by
  intro m
  induction m with
  | nil => intro f adj h; simp [lookupKey] at h
  | cons p rest ih =>
    intro f adj h adj'
    obtain ⟨k, v⟩ := p
    by_cases hk : k = f
    · subst hk
      have hv : v = adj := by simpa [lookupKey] using h
      subst hv
      rw [show setKey ((k, v) :: rest) k adj' = (k, adj') :: rest from by simp [setKey]]
      simp only [mapTriples_cons]
      rw [← Multiset.coe_add, ← Multiset.coe_add]
      abel
    · have h' : lookupKey rest f = some adj := by simpa [lookupKey, hk] using h
      simp only [setKey, if_neg hk, mapTriples_cons]
      rw [← Multiset.coe_add, ← Multiset.coe_add, add_assoc, add_assoc, ih h' adj']

/-- Popping the first matching adjacency entry removes exactly that entry,
as multisets. -/
theorem popMatch_multiset :
    ∀ {adj : Adj} {t : Node} {w : ℚ} {adj' : Adj}, popMatch adj t w = some adj' →
      (↑adj : Multiset (Node × ℚ)) = (t, w) ::ₘ ↑adj' := by
  intro adj
  induction adj with
  | nil => intro t w adj' h; simp [popMatch] at h
  | cons p rest ih =>
    intro t w adj' h
    obtain ⟨n, w'⟩ := p
    by_cases hm : n = t ∧ w' = w
    · simp only [popMatch, if_pos hm] at h
      obtain rfl : rest = adj' := by simpa using h
      obtain ⟨rfl, rfl⟩ := hm
      exact (Multiset.cons_coe _ _).symm
    · simp only [popMatch, if_neg hm] at h
      cases hrest : popMatch rest t w with
      | none => rw [hrest] at h; cases h
      | some a2 =>
        rw [hrest] at h
        obtain rfl : (n, w') :: a2 = adj' := by simpa using h
        calc (↑((n, w') :: rest) : Multiset (Node × ℚ))
            = (n, w') ::ₘ ↑rest := (Multiset.cons_coe _ _).symm
          _ = (n, w') ::ₘ ((t, w) ::ₘ ↑a2) := by rw [ih hrest]
          _ = (t, w) ::ₘ ((n, w') ::ₘ ↑a2) := Multiset.cons_swap _ _ _
          _ = (t, w) ::ₘ ↑((n, w') :: a2) := by rw [Multiset.cons_coe]

/-- The removal loop: the triples it removes together with the reduced dict
are exactly the original triples; keys are untouched; every removed triple's
source is a key. -/
theorem removePhase_spec :
    ∀ (hs : List Triple) (m : EdgeMap),
      ((↑(mapTriples (removePhase m hs).1) + ↑(removePhase m hs).2 : Multiset Triple) =
        ↑(mapTriples m)) ∧
      (removePhase m hs).1.map Prod.fst = m.map Prod.fst ∧
      ∀ tr ∈ (removePhase m hs).2, tr.1 ∈ m.map Prod.fst := by
  intro hs
  induction hs with
  | nil => intro m; refine ⟨by simp [removePhase], rfl, by simp [removePhase]⟩
  | cons htr rest ih =>
    intro m
    obtain ⟨f, t, w⟩ := htr
    cases hlk : lookupKey m f with
    | none =>
      have heq : removePhase m ((f, t, w) :: rest) =
          ((removePhase m rest).1, (removePhase m rest).2) := by
        simp [removePhase, hlk]
      rw [heq]
      exact ih m
    | some adj =>
      cases hpm : popMatch adj t w with
      | none =>
        have heq : removePhase m ((f, t, w) :: rest) =
            ((removePhase m rest).1, (removePhase m rest).2) := by
          simp [removePhase, hlk, hpm]
        rw [heq]
        exact ih m
      | some adj' =>
        have heq : removePhase m ((f, t, w) :: rest) =
            ((removePhase (setKey m f adj') rest).1,
              (f, t, w) :: (removePhase (setKey m f adj') rest).2) := by
          simp [removePhase, hlk, hpm]
        rw [heq]
        obtain ⟨ih1, ih2, ih3⟩ := ih (setKey m f adj')
        have hmap : (↑(adj.map (fun e => (f, e.1, e.2))) : Multiset Triple) =
            (f, t, w) ::ₘ ↑(adj'.map (fun e => (f, e.1, e.2))) := by
          calc (↑(adj.map (fun e => (f, e.1, e.2))) : Multiset Triple)
              = Multiset.map (fun e : Node × ℚ => (f, e.1, e.2)) ↑adj := by
                rw [Multiset.map_coe]
            _ = Multiset.map (fun e : Node × ℚ => (f, e.1, e.2)) ((t, w) ::ₘ ↑adj') := by
                rw [popMatch_multiset hpm]
            _ = (f, t, w) ::ₘ Multiset.map (fun e : Node × ℚ => (f, e.1, e.2)) ↑adj' := by
                rw [Multiset.map_cons]
            _ = (f, t, w) ::ₘ ↑(adj'.map (fun e => (f, e.1, e.2))) := by
                rw [Multiset.map_coe]
        have key : (↑(mapTriples m) : Multiset Triple) =
            ↑(mapTriples (setKey m f adj')) + {(f, t, w)} := by
          have step : (↑(mapTriples m) : Multiset Triple) +
              ↑(adj'.map (fun e => (f, e.1, e.2))) =
              (↑(mapTriples (setKey m f adj')) + {(f, t, w)}) +
                ↑(adj'.map (fun e => (f, e.1, e.2))) := by
            rw [← setKey_mapTriples hlk adj', hmap, ← Multiset.singleton_add]
            abel
          exact add_right_cancel step
        refine ⟨?_, ?_, ?_⟩
        · rw [key, ← Multiset.cons_coe, ← Multiset.singleton_add, ← ih1]
          abel
        · rw [ih2, setKey_keys]
        · intro tr htr
          rcases List.mem_cons.1 htr with rfl | hmem
          · exact lookupKey_isSome_iff.1 (by rw [hlk]; rfl)
          · have hmem2 := ih3 tr hmem
            rw [setKey_keys] at hmem2
            exact hmem2

/-- Appending one edge under a present key adds exactly its triple, keys
unchanged. -/
theorem appendEdge_mapTriples {m : EdgeMap} {f : Node} (hf : f ∈ m.map Prod.fst)
    (t : Node) (w : ℚ) :
    ((↑(mapTriples (appendEdge m f t w)) : Multiset Triple) =
      (f, t, w) ::ₘ ↑(mapTriples m)) ∧
    (appendEdge m f t w).map Prod.fst = m.map Prod.fst := by
  obtain ⟨adj, hlk⟩ : ∃ adj, lookupKey m f = some adj :=
    Option.isSome_iff_exists.1 (lookupKey_isSome_iff.2 hf)
  have hApp : appendEdge m f t w = setKey m f (adj ++ [(t, w)]) := by
    simp [appendEdge, hlk]
  constructor
  · have step : (↑(mapTriples (setKey m f (adj ++ [(t, w)]))) : Multiset Triple) +
        ↑(adj.map (fun e => (f, e.1, e.2))) =
        ((f, t, w) ::ₘ ↑(mapTriples m)) + ↑(adj.map (fun e => (f, e.1, e.2))) := by
      rw [setKey_mapTriples hlk, List.map_append, ← Multiset.coe_add,
        ← Multiset.singleton_add]
      simp only [List.map_cons, List.map_nil, Multiset.coe_singleton]
      abel
    rw [hApp]
    exact add_right_cancel step
  · rw [hApp, setKey_keys]

/-- The restoration loop adds back exactly the removed triples, keys
unchanged, provided every removed source is a key. -/
theorem restorePhase_spec :
    ∀ (rem : List Triple) (m : EdgeMap), (∀ tr ∈ rem, tr.1 ∈ m.map Prod.fst) →
      ((↑(mapTriples (restorePhase m rem)) : Multiset Triple) =
        ↑(mapTriples m) + ↑rem) ∧
      (restorePhase m rem).map Prod.fst = m.map Prod.fst := by
  intro rem
  induction rem with
  | nil => intro m _; exact ⟨by simp [restorePhase], rfl⟩
  | cons tr rest ih =>
    intro m hmem
    obtain ⟨f, t, w⟩ := tr
    have hf : f ∈ m.map Prod.fst := hmem _ (List.mem_cons_self _ _)
    obtain ⟨hA1, hA2⟩ := appendEdge_mapTriples hf t w
    have hrest : ∀ tr2 ∈ rest, tr2.1 ∈ (appendEdge m f t w).map Prod.fst := by
      intro tr2 h2
      rw [hA2]
      exact hmem tr2 (List.mem_cons_of_mem _ h2)
    obtain ⟨ih1, ih2⟩ := ih (appendEdge m f t w) hrest
    have hstep : restorePhase m ((f, t, w) :: rest) =
        restorePhase (appendEdge m f t w) rest := rfl
    refine ⟨?_, by rw [hstep, ih2, hA2]⟩
    rw [hstep, ih1, hA1, ← Multiset.cons_coe, ← Multiset.singleton_add,
      ← Multiset.singleton_add]
    abel

/-- C2: suggest_alternate_path leaves the graph's edge multiset — the bag of
(from, to, weight) triples — identical, whether or not a path was found:
every removed hotspot edge is restored with identical endpoints and
weight. -/
theorem suggest_alternate_path_preserves_edge_multiset (g : Graph) (s e : Node) :
    (↑(edgeTriples (suggest_alternate_path g s e).2) : Multiset Triple) =
      ↑(edgeTriples g) := by
  obtain ⟨h1, h2, h3⟩ := removePhase_spec (find_hotspots g) g.edges
  obtain ⟨r1, _⟩ := restorePhase_spec (removePhase g.edges (find_hotspots g)).2
    (removePhase g.edges (find_hotspots g)).1
    (by intro tr htr; rw [h2]; exact h3 tr htr)
  have hshape : edgeTriples (suggest_alternate_path g s e).2 =
      mapTriples (restorePhase (removePhase g.edges (find_hotspots g)).1
        (removePhase g.edges (find_hotspots g)).2) := rfl
  rw [hshape, r1]
  exact h1

/-! ### C4: find_hotspots is the weight filter -/

/-- The inner hotspot scan of one adjacency list is the weight filter of its
triples. -/
theorem findHotspotsFrom_eq_filter (t : ℚ) (f : Node) :
    ∀ adj : Adj, findHotspotsFrom t f adj =
      (adj.map (fun e => (f, e.1, e.2))).filter (fun tr => t ≤ tr.2.2) := by
  intro adj
  induction adj with
  | nil => rfl
  | cons p rest ih =>
    obtain ⟨n, w⟩ := p
    by_cases hw : t ≤ w
    · simp [findHotspotsFrom, hw, ih]
    · simp [findHotspotsFrom, hw, ih]

/-- The hotspot scan of the whole dict is the weight filter of the flattened
triples, in iteration order. -/
theorem findHotspotsWith_eq_filter (t : ℚ) :
    ∀ m : EdgeMap, findHotspotsWith t m =
      (mapTriples m).filter (fun tr => t ≤ tr.2.2) := by
  intro m
  induction m with
  | nil => rfl
  | cons p rest ih =>
    obtain ⟨f, adj⟩ := p
    rw [mapTriples_cons, List.filter_append]
    show findHotspotsFrom t f adj ++ findHotspotsWith t rest = _
    rw [findHotspotsFrom_eq_filter, ih]

/-- C4: for every graph and threshold t, the hotspot scan returns exactly the
edges of weight ≥ t as (from, to, weight) triples in adjacency-list iteration
order; raising the threshold shrinks the result to a sublist; the source's
find_hotspots is the scan at the module threshold 7. -/
theorem find_hotspots_spec (g : Graph) (t t' : ℚ) :
    (findHotspotsWith t g.edges = (edgeTriples g).filter (fun tr => t ≤ tr.2.2)) ∧
    (find_hotspots g = findHotspotsWith CONGESTION_THRESHOLD g.edges ∧
      CONGESTION_THRESHOLD = 7) ∧
    (t ≤ t' → (findHotspotsWith t' g.edges).Sublist (findHotspotsWith t g.edges)) := by
  refine ⟨findHotspotsWith_eq_filter t g.edges, ⟨rfl, rfl⟩, ?_⟩
  intro htt
  rw [findHotspotsWith_eq_filter t g.edges, findHotspotsWith_eq_filter t' g.edges]
  apply List.monotone_filter_right
  intro tr htr
  simp only [decide_eq_true_eq] at htr ⊢
  exact le_trans htt htr

/-- Witness for C4 at the mock graph: the threshold-7 hotspot list, and the
threshold-9 list is a sublist of it. -/
theorem find_hotspots_spec_witness :
    findHotspotsWith 7 mockGraph.edges =
      [("A", "C", 10), ("A", "E", 15), ("B", "D", 8), ("B", "E", 7), ("C", "F", 12)] ∧
    (findHotspotsWith 9 mockGraph.edges).Sublist (findHotspotsWith 7 mockGraph.edges) := by
  constructor
  · rw [(find_hotspots_spec mockGraph 7 9).1]
    decide
  · exact (find_hotspots_spec mockGraph 7 9).2.2 (by norm_num)

/-! ### C5: the weight update of poll_traffic -/

/-- Keeping the stored key, an in-place overwrite of a present key is found
by a later lookup of that key. -/
theorem lookupKey_setKey_self [DecidableEq α] :
    ∀ {m : List (α × β)} {k : α} {v : β}, lookupKey m k = some v →
      ∀ b, lookupKey (setKey m k b) k = some b := by
  intro m
  induction m with
  | nil => intro k v h; simp [lookupKey] at h
  | cons p rest ih =>
    intro k v h b
    obtain ⟨k', v'⟩ := p
    by_cases hk : k' = k
    · subst hk
      simp [setKey, lookupKey]
    · have h' : lookupKey rest k = some v := by simpa [lookupKey, hk] using h
      simp [setKey, lookupKey, hk, ih h' b]

/-- An in-place overwrite of one key leaves every other key's lookup
unchanged. -/
theorem lookupKey_setKey_ne [DecidableEq α] (k f' : α) (b : β) (hne : f' ≠ k) :
    ∀ m : List (α × β), lookupKey (setKey m k b) f' = lookupKey m f' := by
  intro m
  induction m with
  | nil => rfl
  | cons p rest ih =>
    obtain ⟨k', v'⟩ := p
    by_cases hk : k' = k
    · subst hk
      have : ¬ k' = f' := fun hc => hne (hc.symm)
      simp [setKey, lookupKey, this]
    · simp [setKey, lookupKey, hk, ih]

/-- Overwriting a present key with the value it already stores changes
nothing. -/
theorem setKey_self [DecidableEq α] :
    ∀ {m : List (α × β)} {k : α} {v : β}, lookupKey m k = some v →
      setKey m k v = m := by
  intro m
  induction m with
  | nil => intro k v _; rfl
  | cons p rest ih =>
    intro k v h
    obtain ⟨k', v'⟩ := p
    by_cases hk : k' = k
    · subst hk
      have hv : v' = v := by simpa [lookupKey] using h
      subst hv
      simp [setKey]
    · have h' : lookupKey rest k = some v := by simpa [lookupKey, hk] using h
      simp [setKey, hk, ih h']

/-- A map that touches no element is the identity. -/
theorem map_eq_self_of_no_match {t : Node} {w : ℚ} :
    ∀ {adj : Adj}, (∀ e ∈ adj, e.1 ≠ t) →
      adj.map (fun e => if e.1 = t then (t, w) else e) = adj := by
  intro adj
  induction adj with
  | nil => intro _; rfl
  | cons p rest ih =>
    intro h
    have hp : p.1 ≠ t := h p (List.mem_cons_self _ _)
    simp only [List.map_cons, if_neg hp, List.cons.injEq, true_and]
    exact ih (fun e he => h e (List.mem_cons_of_mem _ he))

/-- Counterexample to C5 as stated: with two parallel edges A→B, the update
loop of poll_traffic (which has no break) rewrites both, not only the first
in insertion order. -/
def parallelGraph : Graph := (Graph.empty.add_edge "A" "B" 1).add_edge "A" "B" 2

/-- Counterexample to C5: updating (A, B) to weight 5 leaves [(B,5), (B,5)],
not the claimed [(B,5), (B,2)] that would keep the second parallel edge. -/
theorem update_edge_weight_counterexample :
    parallelGraph.edgesGet "A" = [("B", 1), ("B", 2)] ∧
    (parallelGraph.update_edge_weight "A" "B" 5).edgesGet "A" = [("B", 5), ("B", 5)] ∧
    (parallelGraph.update_edge_weight "A" "B" 5).edgesGet "A" ≠ [("B", 5), ("B", 2)] := by
  refine ⟨by decide, by decide, by decide⟩

/-- C5 (amended): the weight update rewrites every adjacency entry of the
source node whose target matches — all parallel matches, not only the first —
leaves every other node's list untouched, and is a no-op (never an error)
when no edge matches. -/
theorem update_edge_weight_updates_all_matches (g : Graph) (f t : Node) (w : ℚ) :
    ((g.update_edge_weight f t w).edgesGet f =
      (g.edgesGet f).map (fun e => if e.1 = t then (t, w) else e)) ∧
    (∀ f', f' ≠ f → (g.update_edge_weight f t w).edgesGet f' = g.edgesGet f') ∧
    ((∀ e ∈ g.edgesGet f, e.1 ≠ t) → g.update_edge_weight f t w = g) := by
  refine ⟨?_, ?_, ?_⟩
  · cases hlk : lookupKey g.edges f with
    | none => simp [Graph.update_edge_weight, hlk, Graph.edgesGet]
    | some adj =>
      simp only [Graph.update_edge_weight, hlk, Graph.edgesGet]
      rw [lookupKey_setKey_self hlk]
      rfl
  · intro f' hne
    cases hlk : lookupKey g.edges f with
    | none => simp [Graph.update_edge_weight, hlk]
    | some adj =>
      simp only [Graph.update_edge_weight, hlk, Graph.edgesGet]
      rw [lookupKey_setKey_ne f f' _ hne]
  · intro hnone
    cases hlk : lookupKey g.edges f with
    | none => simp [Graph.update_edge_weight, hlk]
    | some adj =>
      have hadj : g.edgesGet f = adj := by simp [Graph.edgesGet, hlk]
      rw [hadj] at hnone
      simp only [Graph.update_edge_weight, hlk]
      rw [map_eq_self_of_no_match hnone, setKey_self hlk]

/-- Witness for the amended C5: a no-match update is a no-op, and an
unrelated node's list is untouched by a matching update. -/
theorem update_edge_weight_amended_witness :
    lineGraph.update_edge_weight "A" "C" 5 = lineGraph ∧
    (parallelGraph.update_edge_weight "A" "B" 5).edgesGet "Z" =
      parallelGraph.edgesGet "Z" := by
  constructor
  · exact (update_edge_weight_updates_all_matches lineGraph "A" "C" 5).2.2 (by decide)
  · exact (update_edge_weight_updates_all_matches parallelGraph "A" "B" 5).2.1 "Z"
      (by decide)

/-! ### C6: edge endpoints and the node set -/

/-- mapTriples distributes over dict concatenation. -/
theorem mapTriples_append :
    ∀ m1 m2 : EdgeMap, mapTriples (m1 ++ m2) = mapTriples m1 ++ mapTriples m2 := by
  intro m1 m2
  induction m1 with
  | nil => rfl
  | cons p rest ih =>
    rw [List.cons_append, mapTriples_cons, mapTriples_cons, ih, List.append_assoc]

/-- add_node records no edge. -/
theorem add_node_edgeTriples (g : Graph) (n : Node) (pos : Option (ℚ × ℚ)) :
    edgeTriples (g.add_node n pos) = edgeTriples g := by
  unfold edgeTriples Graph.add_node
  by_cases h : (lookupKey g.edges n).isSome
  · simp [h]
  · simp [h, mapTriples_append, mapTriples]

/-- add_node keeps every existing adjacency key. -/
theorem add_node_keyList_mono (g : Graph) (n : Node) (pos : Option (ℚ × ℚ)) (k : Node)
    (h : k ∈ g.keyList) : k ∈ (g.add_node n pos).keyList := by
  unfold Graph.keyList at h ⊢
  unfold Graph.add_node
  by_cases hs : (lookupKey g.edges n).isSome
  · simpa [hs] using h
  · simp only [hs, if_false, Bool.false_eq_true, List.map_append, List.mem_append]
    exact Or.inl h

/-- The first setdefault-append adds exactly the new triple, as multisets. -/
theorem setdefaultAppend_triples (m : EdgeMap) (f t : Node) (w : ℚ) :
    (↑(mapTriples (setdefaultAppend m f t w)) : Multiset Triple) =
      (f, t, w) ::ₘ ↑(mapTriples m) := by
  cases hlk : lookupKey m f with
  | some adj =>
    have heq : setdefaultAppend m f t w = appendEdge m f t w := by
      simp [setdefaultAppend, appendEdge, hlk]
    have hf : f ∈ m.map Prod.fst := lookupKey_isSome_iff.1 (by rw [hlk]; rfl)
    rw [heq]
    exact (appendEdge_mapTriples hf t w).1
  | none =>
    have heq : setdefaultAppend m f t w = m ++ [(f, [(t, w)])] := by
      simp [setdefaultAppend, hlk]
    rw [heq, mapTriples_append]
    rw [show mapTriples [(f, [(t, w)])] = [(f, t, w)] from rfl, ← Multiset.coe_add,
      ← Multiset.singleton_add, Multiset.coe_singleton]
    abel

/-- The first setdefault-append keeps every existing key and makes the source
a key. -/
theorem setdefaultAppend_keys (m : EdgeMap) (f t : Node) (w : ℚ) :
    (∀ k ∈ m.map Prod.fst, k ∈ (setdefaultAppend m f t w).map Prod.fst) ∧
    f ∈ (setdefaultAppend m f t w).map Prod.fst := by
  cases hlk : lookupKey m f with
  | some adj =>
    have heq : setdefaultAppend m f t w = setKey m f (adj ++ [(t, w)]) := by
      simp [setdefaultAppend, hlk]
    rw [heq, setKey_keys]
    exact ⟨fun k hk => hk, lookupKey_isSome_iff.1 (by rw [hlk]; rfl)⟩
  | none =>
    have heq : setdefaultAppend m f t w = m ++ [(f, [(t, w)])] := by
      simp [setdefaultAppend, hlk]
    rw [heq, List.map_append]
    exact ⟨fun k hk => List.mem_append.2 (Or.inl hk), List.mem_append.2 (Or.inr (by simp))⟩

/-- The second setdefault records no edge. -/
theorem ensureKey_triples (m : EdgeMap) (t : Node) :
    mapTriples (ensureKey m t) = mapTriples m := by
  unfold ensureKey
  by_cases h : (lookupKey m t).isSome
  · simp [h]
  · simp [h, mapTriples_append, mapTriples]

/-- The second setdefault keeps every existing key and makes its argument a
key. -/
theorem ensureKey_keys (m : EdgeMap) (t : Node) :
    (∀ k ∈ m.map Prod.fst, k ∈ (ensureKey m t).map Prod.fst) ∧
    t ∈ (ensureKey m t).map Prod.fst := by
  unfold ensureKey
  by_cases h : (lookupKey m t).isSome
  · simp only [h, if_true]
    exact ⟨fun k hk => hk, lookupKey_isSome_iff.1 h⟩
  · simp only [h, if_false, Bool.false_eq_true, List.map_append, List.mem_append]
    exact ⟨fun k hk => Or.inl hk, Or.inr (by simp)⟩

/-- What add_edge does to the triples and to the keys. -/
theorem add_edge_spec (g : Graph) (f t : Node) (w : ℚ) :
    (∀ tr : Triple, tr ∈ edgeTriples (g.add_edge f t w) ↔
      (tr ∈ edgeTriples g ∨ tr = (f, t, w))) ∧
    (∀ k ∈ g.keyList, k ∈ (g.add_edge f t w).keyList) ∧
    f ∈ (g.add_edge f t w).keyList ∧ t ∈ (g.add_edge f t w).keyList := by
  have htr : edgeTriples (g.add_edge f t w) =
      mapTriples (ensureKey (setdefaultAppend g.edges f t w) t) := rfl
  have hkey : (g.add_edge f t w).keyList =
      (ensureKey (setdefaultAppend g.edges f t w) t).map Prod.fst := rfl
  refine ⟨?_, ?_, ?_, ?_⟩
  · intro tr
    rw [htr, ensureKey_triples]
    constructor
    · intro h
      have hm : tr ∈ (↑(mapTriples (setdefaultAppend g.edges f t w)) : Multiset Triple) :=
        Multiset.mem_coe.2 h
      rw [setdefaultAppend_triples] at hm
      rcases Multiset.mem_cons.1 hm with h1 | h2
      · exact Or.inr h1
      · exact Or.inl (Multiset.mem_coe.1 h2)
    · intro h
      have hm : tr ∈ ((f, t, w) ::ₘ ↑(mapTriples g.edges) : Multiset Triple) := by
        rcases h with h1 | h2
        · exact Multiset.mem_cons.2 (Or.inr (Multiset.mem_coe.2 h1))
        · exact Multiset.mem_cons.2 (Or.inl h2)
      rw [← setdefaultAppend_triples g.edges f t w] at hm
      exact Multiset.mem_coe.1 hm
  · intro k hk
    rw [hkey]
    exact (ensureKey_keys _ t).1 k ((setdefaultAppend_keys g.edges f t w).1 k hk)
  · rw [hkey]
    exact (ensureKey_keys _ t).1 f (setdefaultAppend_keys g.edges f t w).2
  · rw [hkey]
    exact (ensureKey_keys _ t).2

/-- C6 (amended): after any sequence of add_node and add_edge operations on a
fresh graph, every edge endpoint is a key of the adjacency dict — add_edge
inserts both endpoints there via its two setdefault calls.  (The separate
self.nodes set is only written by add_node; add_edge never touches it, which
is what the counterexample shows.) -/
theorem applyOps_endpoints_are_keys (ops : List GraphOp) (tr : Triple)
    (htr : tr ∈ edgeTriples (applyOps ops)) :
    tr.1 ∈ (applyOps ops).keyList ∧ tr.2.1 ∈ (applyOps ops).keyList := by
  suffices h : ∀ (ops2 : List GraphOp) (g : Graph),
      (∀ tr2 ∈ edgeTriples g, tr2.1 ∈ g.keyList ∧ tr2.2.1 ∈ g.keyList) →
      ∀ tr2 ∈ edgeTriples (ops2.foldl applyOp g),
        tr2.1 ∈ (ops2.foldl applyOp g).keyList ∧
        tr2.2.1 ∈ (ops2.foldl applyOp g).keyList by
    refine h ops Graph.empty ?_ tr htr
    intro tr2 h2
    rw [show edgeTriples Graph.empty = [] from rfl] at h2
    cases h2
  intro ops2
  induction ops2 with
  | nil => intro g hg; simpa using hg
  | cons op rest ih =>
    intro g hg
    rw [List.foldl_cons]
    apply ih
    cases op with
    | node n pos =>
      intro tr2 h2
      rw [show applyOp g (GraphOp.node n pos) = g.add_node n pos from rfl] at h2 ⊢
      rw [add_node_edgeTriples] at h2
      obtain ⟨h1, h2'⟩ := hg tr2 h2
      exact ⟨add_node_keyList_mono g n pos _ h1, add_node_keyList_mono g n pos _ h2'⟩
    | edge f t w =>
      intro tr2 h2
      rw [show applyOp g (GraphOp.edge f t w) = g.add_edge f t w from rfl] at h2 ⊢
      obtain ⟨hiff, hmono, hf, ht⟩ := add_edge_spec g f t w
      rcases (hiff tr2).1 h2 with hold | rfl
      · obtain ⟨h1, h2'⟩ := hg tr2 hold
        exact ⟨hmono _ h1, hmono _ h2'⟩
      · exact ⟨hf, ht⟩

/-- Witness for the amended C6: one add_edge on a fresh graph makes both
endpoints adjacency keys. -/
theorem applyOps_endpoints_are_keys_witness :
    ("A", "B", (1 : ℚ)) ∈ edgeTriples (applyOps [GraphOp.edge "A" "B" 1]) ∧
    "A" ∈ (applyOps [GraphOp.edge "A" "B" 1]).keyList ∧
    "B" ∈ (applyOps [GraphOp.edge "A" "B" 1]).keyList := by
  have h := applyOps_endpoints_are_keys [GraphOp.edge "A" "B" 1] ("A", "B", (1 : ℚ))
    (by decide)
  exact ⟨by decide, h.1, h.2⟩

/-- Counterexample to C6 as stated: add_edge never writes the nodes set, so
after a single add_edge the edge's endpoints are absent from it even though
the edge exists. -/
theorem add_edge_nodes_counterexample :
    edgeTriples lineGraph = [("A", "B", 1)] ∧
    "A" ∉ lineGraph.nodes ∧ "B" ∉ lineGraph.nodes ∧ lineGraph.nodes = [] := by
  refine ⟨by decide, by decide, by decide, by decide⟩

/-! ### C3: the concrete mock-data scenario -/

/-- C3: on the graph built from the mock traffic feed (edges A→B 5, B→C 3,
A→C 10, B→D 8, C→D 2, D→E 4, E→F 6, C→F 12, A→E 15, B→E 7), uniform-cost
search from A to D returns the path [A, B, C, D] with cost 10, and not
[A, B, D] with cost 13. -/
theorem dijkstra_mock_scenario :
    mockGraph = build_graph_from_traffic fetch_traffic_data ∧
    mockGraph.dijkstra "A" "D" = (["A", "B", "C", "D"], ((10 : ℚ) : WithTop ℚ)) ∧
    mockGraph.dijkstra "A" "D" ≠ (["A", "B", "D"], ((13 : ℚ) : WithTop ℚ)) := by
  refine ⟨rfl, by decide, by decide⟩

/-! ### C10: adjacency order after suggest_alternate_path -/

/-- One node with a non-hotspot edge lying between two hotspot edges: the
remove/restore cycle of suggest_alternate_path moves the hotspots to the
tail. -/
def reorderGraph : Graph :=
  ((Graph.empty.add_edge "A" "B" 9).add_edge "A" "D" 1).add_edge "A" "C" 8

/-- C10 (amended): suggest_alternate_path re-appends removed hotspot edges at
the tail of their source's adjacency list, so adjacency-list iteration order
can change while the edge multiset is preserved; the hotspot edges keep their
relative order, however, so the order of a subsequent find_hotspots result
need not change — on this witness it is identical. -/
theorem suggest_alternate_path_reorders_adjacency :
    reorderGraph.edgesGet "A" = [("B", 9), ("D", 1), ("C", 8)] ∧
    (suggest_alternate_path reorderGraph "A" "D").2.edgesGet "A" =
      [("D", 1), ("B", 9), ("C", 8)] ∧
    (suggest_alternate_path reorderGraph "A" "D").2.edgesGet "A" ≠
      reorderGraph.edgesGet "A" ∧
    (↑(edgeTriples (suggest_alternate_path reorderGraph "A" "D").2) : Multiset Triple) =
      ↑(edgeTriples reorderGraph) := by
  refine ⟨by decide, by decide, by decide, ?_⟩
  rw [Multiset.coe_eq_coe]
  decide

/-- Counterexample to C10's parenthetical: at the very graph whose adjacency
order changes, the find_hotspots result after the call is identical to the
one before — restored hotspots keep their relative order, so the changed
adjacency order does not change the hotspot list. -/
theorem find_hotspots_order_unchanged_counterexample :
    (suggest_alternate_path reorderGraph "A" "D").2.edgesGet "A" ≠
      reorderGraph.edgesGet "A" ∧
    find_hotspots (suggest_alternate_path reorderGraph "A" "D").2 =
      find_hotspots reorderGraph := by
  refine ⟨by decide, by decide⟩

end RouteIQ
